import Mathlib

/-
Verification of the QUIC certificate-chain codec in
src/net/third_party/quiche/src/quiche/quic/core/crypto/cert_compressor.cc.

Certificates are modelled as lists of byte values (List Nat), the wire frame
as a list of byte values.  Multi-byte integers are read and written in
little-endian order, matching the memcpy-based native-order access in the
source (the source comments note the code assumes a little-endian machine).

The zlib compression engine is an external collaborator of the repository;
it is modelled at its interface boundary: a deflate function
(dictionary, payload to bytes) and an inflate function returning a status,
the produced bytes and the count of unconsumed input bytes, exactly the
observable surface the source consults (return status, avail_in, avail_out).
-/

namespace CertComp

/-- Little-endian value of a byte list: byte i contributes with weight 256 ^ i. -/
def fromLE (l : List Nat) : Nat := l.foldr (fun b acc => b + 256 * acc) 0

/-- The k little-endian bytes of n (as memcpy of a k-byte integer writes them). -/
def toLE : Nat → Nat → List Nat
  | 0, _ => []
  | k + 1, n => n % 256 :: toLE k (n / 256)

def toLE4 (n : Nat) : List Nat := toLE 4 n

def toLE8 (n : Nat) : List Nat := toLE 8 n

def concatAll (l : List (List Nat)) : List Nat := l.foldr (fun a b => a ++ b) []

/-- Modelled from the spec: QuicUtils::FNV1a_64_Hash is not under src/; the
spec describes it as the 64-bit FNV-1a hash of the raw certificate bytes.
Standard FNV-1a 64: offset basis 14695981039346656037, prime 1099511628211,
arithmetic modulo 2 ^ 64. -/
def fnv1a64 (bytes : List Nat) : Nat :=
  bytes.foldl (fun h b => ((h ^^^ b) * 1099511628211) % 2 ^ 64) 14695981039346656037

/-- CertEntry from the source: type COMPRESSED (wire byte 1) or CACHED (wire
byte 2, carrying a 64-bit hash); wire byte 0 is the list terminator. -/
inductive CertEntry where
  | compressed
  | cached (hash : Nat)
deriving DecidableEq

def isCachedE : CertEntry → Bool
  | .cached _ => true
  | .compressed => false

/-- kCommonCertSubstrings: the static corpus of common certificate substrings
(1484 bytes), transcribed from the source. -/
def kCommonCertSubstrings : List Nat :=
[
  4, 2, 48, 0, 48, 29, 6, 3, 85, 29, 37, 4, 22, 48, 20, 6, 8, 43, 6, 1,
  5, 5, 7, 3, 1, 6, 8, 43, 6, 1, 5, 5, 7, 3, 2, 48, 95, 6, 9, 96,
  134, 72, 1, 134, 248, 66, 4, 1, 6, 6, 11, 96, 134, 72, 1, 134, 253, 109, 1, 7,
  23, 1, 48, 51, 32, 69, 120, 116, 101, 110, 100, 101, 100, 32, 86, 97, 108, 105, 100, 97,
  116, 105, 111, 110, 32, 83, 32, 76, 105, 109, 105, 116, 101, 100, 49, 52, 32, 83, 83, 76,
  32, 67, 65, 48, 30, 23, 13, 49, 50, 32, 83, 101, 99, 117, 114, 101, 32, 83, 101, 114,
  118, 101, 114, 32, 67, 65, 48, 45, 97, 105, 97, 46, 118, 101, 114, 105, 115, 105, 103, 110,
  46, 99, 111, 109, 47, 69, 45, 99, 114, 108, 46, 118, 101, 114, 105, 115, 105, 103, 110, 46,
  99, 111, 109, 47, 69, 46, 99, 101, 114, 48, 13, 6, 9, 42, 134, 72, 134, 247, 13, 1,
  1, 5, 5, 0, 3, 130, 1, 1, 0, 74, 46, 99, 111, 109, 47, 114, 101, 115, 111, 117,
  114, 99, 101, 115, 47, 99, 112, 115, 32, 40, 99, 41, 48, 48, 9, 6, 3, 85, 29, 19,
  4, 2, 48, 0, 48, 29, 48, 13, 6, 9, 42, 134, 72, 134, 247, 13, 1, 1, 5, 5,
  0, 3, 130, 1, 1, 0, 123, 48, 29, 6, 3, 85, 29, 14, 48, 130, 1, 34, 48, 13,
  6, 9, 42, 134, 72, 134, 247, 13, 1, 1, 1, 5, 0, 3, 130, 1, 15, 0, 48, 130,
  1, 10, 2, 130, 1, 1, 0, 210, 111, 100, 111, 99, 97, 46, 99, 111, 109, 47, 67, 46,
  99, 114, 108, 48, 29, 6, 3, 85, 29, 14, 4, 22, 4, 20, 180, 46, 103, 108, 111, 98,
  97, 108, 115, 105, 103, 110, 46, 99, 111, 109, 47, 114, 48, 11, 6, 3, 85, 29, 15, 4,
  4, 3, 2, 1, 48, 13, 6, 9, 42, 134, 72, 134, 247, 13, 1, 1, 5, 5, 0, 48,
  129, 202, 49, 11, 48, 9, 6, 3, 85, 4, 6, 19, 2, 85, 83, 49, 16, 48, 14, 6,
  3, 85, 4, 8, 19, 7, 65, 114, 105, 122, 111, 110, 97, 49, 19, 48, 17, 6, 3, 85,
  4, 7, 19, 10, 83, 99, 111, 116, 116, 115, 100, 97, 108, 101, 49, 26, 48, 24, 6, 3,
  85, 4, 10, 19, 17, 71, 111, 68, 97, 100, 100, 121, 46, 99, 111, 109, 44, 32, 73, 110,
  99, 46, 49, 51, 48, 49, 6, 3, 85, 4, 11, 19, 42, 104, 116, 116, 112, 58, 47, 47,
  99, 101, 114, 116, 105, 102, 105, 99, 97, 116, 101, 115, 46, 103, 111, 100, 97, 100, 100, 121,
  46, 99, 111, 109, 47, 114, 101, 112, 111, 115, 105, 116, 111, 114, 121, 49, 48, 48, 46, 6,
  3, 85, 4, 3, 19, 39, 71, 111, 32, 68, 97, 100, 100, 121, 32, 83, 101, 99, 117, 114,
  101, 32, 67, 101, 114, 116, 105, 102, 105, 99, 97, 116, 105, 111, 110, 32, 65, 117, 116, 104,
  111, 114, 105, 116, 121, 49, 17, 48, 15, 6, 3, 85, 4, 5, 19, 8, 48, 55, 57, 54,
  57, 50, 56, 55, 48, 30, 23, 13, 49, 49, 48, 14, 6, 3, 85, 29, 15, 1, 1, 255,
  4, 4, 3, 2, 5, 160, 48, 12, 6, 3, 85, 29, 19, 1, 1, 255, 4, 2, 48, 0,
  48, 29, 48, 15, 6, 3, 85, 29, 19, 1, 1, 255, 4, 5, 48, 3, 1, 1, 0, 48,
  29, 6, 3, 85, 29, 37, 4, 22, 48, 20, 6, 8, 43, 6, 1, 5, 5, 7, 3, 1,
  6, 8, 43, 6, 1, 5, 5, 7, 3, 2, 48, 14, 6, 3, 85, 29, 15, 1, 1, 255,
  4, 4, 3, 2, 5, 160, 48, 51, 6, 3, 85, 29, 31, 4, 44, 48, 42, 48, 40, 160,
  38, 160, 36, 134, 34, 104, 116, 116, 112, 58, 47, 47, 99, 114, 108, 46, 103, 111, 100, 97,
  100, 100, 121, 46, 99, 111, 109, 47, 103, 100, 115, 49, 45, 50, 48, 42, 48, 40, 6, 8,
  43, 6, 1, 5, 5, 7, 2, 1, 22, 28, 104, 116, 116, 112, 115, 58, 47, 47, 119, 119,
  119, 46, 118, 101, 114, 105, 115, 105, 103, 110, 46, 99, 111, 109, 47, 99, 112, 115, 48, 52,
  48, 48, 48, 48, 48, 48, 90, 23, 13, 49, 51, 48, 53, 48, 57, 6, 8, 43, 6, 1,
  5, 5, 7, 48, 2, 134, 45, 104, 116, 116, 112, 58, 47, 47, 115, 48, 57, 48, 55, 6,
  8, 43, 6, 1, 5, 5, 7, 2, 48, 68, 6, 3, 85, 29, 32, 4, 61, 48, 59, 48,
  57, 6, 11, 96, 134, 72, 1, 134, 248, 69, 1, 7, 23, 6, 49, 11, 48, 9, 6, 3,
  85, 4, 6, 19, 2, 71, 66, 49, 27, 83, 49, 23, 48, 21, 6, 3, 85, 4, 10, 19,
  14, 86, 101, 114, 105, 83, 105, 103, 110, 44, 32, 73, 110, 99, 46, 49, 31, 48, 29, 6,
  3, 85, 4, 11, 19, 22, 86, 101, 114, 105, 83, 105, 103, 110, 32, 84, 114, 117, 115, 116,
  32, 78, 101, 116, 119, 111, 114, 107, 49, 59, 48, 57, 6, 3, 85, 4, 11, 19, 50, 84,
  101, 114, 109, 115, 32, 111, 102, 32, 117, 115, 101, 32, 97, 116, 32, 104, 116, 116, 112, 115,
  58, 47, 47, 119, 119, 119, 46, 118, 101, 114, 105, 115, 105, 103, 110, 46, 99, 111, 109, 47,
  114, 112, 97, 32, 40, 99, 41, 48, 49, 16, 48, 14, 6, 3, 85, 4, 7, 19, 7, 83,
  49, 19, 48, 17, 6, 3, 85, 4, 11, 19, 10, 71, 49, 19, 48, 17, 6, 11, 43, 6,
  1, 4, 1, 130, 55, 60, 2, 1, 3, 19, 2, 85, 49, 22, 48, 20, 6, 3, 85, 4,
  3, 20, 49, 25, 48, 23, 6, 3, 85, 4, 3, 19, 49, 29, 48, 27, 6, 3, 85, 4,
  15, 19, 20, 80, 114, 105, 118, 97, 116, 101, 32, 79, 114, 103, 97, 110, 105, 122, 97, 116,
  105, 111, 110, 49, 18, 49, 33, 48, 31, 6, 3, 85, 4, 11, 19, 24, 68, 111, 109, 97,
  105, 110, 32, 67, 111, 110, 116, 114, 111, 108, 32, 86, 97, 108, 105, 100, 97, 116, 101, 100,
  49, 20, 49, 49, 48, 47, 6, 3, 85, 4, 11, 19, 40, 83, 101, 101, 32, 119, 119, 119,
  46, 114, 58, 47, 47, 115, 101, 99, 117, 114, 101, 46, 103, 71, 108, 111, 98, 97, 108, 83,
  105, 103, 110, 49, 83, 101, 114, 118, 101, 114, 67, 65, 46, 99, 114, 108, 86, 101, 114, 105,
  83, 105, 103, 110, 32, 67, 108, 97, 115, 115, 32, 51, 32, 69, 99, 114, 108, 46, 103, 101,
  111, 116, 114, 117, 115, 116, 46, 99, 111, 109, 47, 99, 114, 108, 115, 47, 115, 100, 49, 26,
  48, 24, 6, 3, 85, 4, 10, 104, 116, 116, 112, 58, 47, 47, 69, 86, 73, 110, 116, 108,
  45, 99, 99, 114, 116, 46, 103, 119, 119, 119, 46, 103, 105, 99, 101, 114, 116, 46, 99, 111,
  109, 47, 49, 111, 99, 115, 112, 46, 118, 101, 114, 105, 115, 105, 103, 110, 46, 99, 111, 109,
  48, 57, 114, 97, 112, 105, 100, 115, 115, 108, 46, 99, 111, 115, 46, 103, 111, 100, 97, 100,
  100, 121, 46, 99, 111, 109, 47, 114, 101, 112, 111, 115, 105, 116, 111, 114, 121, 47, 48, 129,
  128, 6, 8, 43, 6, 1, 5, 5, 7, 1, 1, 4, 116, 48, 114, 48, 36, 6, 8, 43,
  6, 1, 5, 5, 7, 48, 1, 134, 24, 104, 116, 116, 112, 58, 47, 47, 111, 99, 115, 112,
  46, 103, 111, 100, 97, 100, 100, 121, 46, 99, 111, 109, 47, 48, 74, 6, 8, 43, 6, 1,
  5, 5, 7, 48, 2, 134, 62, 104, 116, 116, 112, 58, 47, 47, 99, 101, 114, 116, 105, 102,
  105, 99, 97, 116, 101, 115, 46, 103, 111, 100, 97, 100, 100, 121, 46, 99, 111, 109, 47, 114,
  101, 112, 111, 115, 105, 116, 111, 114, 121, 47, 103, 100, 95, 105, 110, 116, 101, 114, 109, 101,
  100, 105, 97, 116, 101, 46, 99, 114, 116, 48, 31, 6, 3, 85, 29, 35, 4, 24, 48, 22,
  128, 20, 253, 172, 97, 50, 147, 108, 69, 214, 226, 238, 133, 95, 154, 186, 231, 118, 153, 104,
  204, 231, 48, 39, 134, 41, 104, 116, 116, 112, 58, 47, 47, 99, 134, 48, 104, 116, 116, 112,
  58, 47, 47, 115]

/-- MatchCerts inner scan: walk the advertised byte string 8 bytes at a time
looking for an 8-byte value equal to h (the memcpy comparison loop).  The
caller guards the scan with the multiple-of-8 length check, so the input
always splits into whole 8-byte groups. -/
def matchOne (h : Nat) : List Nat → Bool
  | a0 :: a1 :: a2 :: a3 :: a4 :: a5 :: a6 :: a7 :: rest =>
    if fromLE [a0, a1, a2, a3, a4, a5, a6, a7] = h then true else matchOne h rest
  | _ => false

/-- MatchCerts: one entry per certificate in chain order; the advertised hash
string participates only when nonempty with length a multiple of 8. -/
def matchCerts (certs : List (List Nat)) (adv : List Nat) : List CertEntry :=
  let cachedValid := adv.length % 8 == 0 && !adv.isEmpty
  certs.map fun c =>
    if cachedValid then
      if matchOne (fnv1a64 c) adv then .cached (fnv1a64 c) else .compressed
    else .compressed

/-- CertEntriesSize: one byte per entry, 8 more per cached entry, one
terminator byte, accumulated in size_t arithmetic (wrapping modulo 2 ^ 64). -/
def certEntriesSize (entries : List CertEntry) : Nat :=
  (entries.foldl
    (fun acc e =>
      match e with
      | .compressed => (acc + 1) % 2 ^ 64
      | .cached _ => ((acc + 1) % 2 ^ 64 + 8) % 2 ^ 64)
    0 + 1) % 2 ^ 64

/-- Wire bytes of one entry: its type byte, then (for cached) the 8 hash
bytes as memcpy of the uint64 writes them. -/
def encodeEntry : CertEntry → List Nat
  | .compressed => [1]
  | .cached h => 2 :: toLE8 h

def entryBytes : List CertEntry → List Nat
  | [] => []
  | e :: es => encodeEntry e ++ entryBytes es

/-- SerializeCertEntries: the entries one after another, then the 0 end
marker. -/
def serializeCertEntries (entries : List CertEntry) : List Nat :=
  entryBytes entries ++ [0]

/-- The dictionary contribution of index i: the certificate at i when entry
i is not COMPRESSED, nothing otherwise. -/
def dictPick (entries : List CertEntry) (certs : List (List Nat)) (i : Nat) : List Nat :=
  match entries.getD i .compressed with
  | .compressed => []
  | .cached _ => certs.getD i []

/-- ZlibDictForEntries reverse loop: index i runs from certs.length - 1 down
to 0; the certificate at i is appended whenever entry i is not COMPRESSED. -/
def dictLoop (entries : List CertEntry) (certs : List (List Nat)) : Nat → List Nat
  | 0 => []
  | i + 1 => dictPick entries certs i ++ dictLoop entries certs i

/-- ZlibDictForEntries: cached certificates in reverse chain order followed by
the static common-substrings corpus. -/
def zlibDictForEntries (entries : List CertEntry) (certs : List (List Nat)) : List Nat :=
  dictLoop entries certs certs.length ++ kCommonCertSubstrings

/-- HashCerts: FNV-1a hash of every cache certificate, in order. -/
def hashCerts (certs : List (List Nat)) : List Nat := certs.map fnv1a64

/-- ParseEntries cached-resolution loop: scan indices upward and return the
certificate at the first index whose hash equals h. -/
def lookupCached : List Nat → List (List Nat) → Nat → Option (List Nat)
  | h0 :: hs, c0 :: cs, h => if h0 = h then some c0 else lookupCached hs cs h
  | _, _, _ => none

/-- Result of the ParseEntries loop: the ok flag, the entry and certificate
lists as the caller-visible vectors hold them when the loop stops (partial on
failure, exactly as the source leaves the out parameters), the unconsumed
input, and how many times HashCerts ran. -/
structure ParseRes where
  ok : Bool
  entries : List CertEntry
  certs : List (List Nat)
  rest : List Nat
  calls : Nat
deriving DecidableEq

/-- ParseEntries: consume type bytes until the 0 terminator; type 1 reserves
an empty slot; type 2 reads 8 hash bytes and resolves them against the local
cache, hashing the cache lazily (only when the memoised hash list length
differs from the cache length, i.e. at most on the first cached entry); any
other type byte, exhausted input, a truncated hash, or an unresolvable hash
stops the loop with ok = false. -/
def parseLoop (cache : List (List Nat)) (input : List Nat) (hashes : List Nat)
    (calls : Nat) : ParseRes :=
  match input with
  | [] => ⟨false, [], [], [], calls⟩
  | 0 :: rest => ⟨true, [], [], rest, calls⟩
  | 1 :: rest =>
    let r := parseLoop cache rest hashes calls
    ⟨r.ok, .compressed :: r.entries, [] :: r.certs, r.rest, r.calls⟩
  | 2 :: rest =>
    if rest.length < 8 then ⟨false, [], [], rest, calls⟩
    else
      let h := fromLE (rest.take 8)
      let hashes2 := if hashes.length ≠ cache.length then hashCerts cache else hashes
      let calls2 := if hashes.length ≠ cache.length then calls + 1 else calls
      match lookupCached hashes2 cache h with
      | none => ⟨false, [], [], rest.drop 8, calls2⟩
      | some cert =>
        let r := parseLoop cache (rest.drop 8) hashes2 calls2
        ⟨r.ok, .cached h :: r.entries, cert :: r.certs, r.rest, r.calls⟩
  | _ :: rest => ⟨false, [], [], rest, calls⟩
termination_by input.length
decreasing_by
  all_goals simp [List.length_drop]
  all_goals omega

/-- The logical uncompressed payload: for every COMPRESSED certificate in
chain order, 4 little-endian length bytes (the uint32 truncation of its
length) then its bytes. -/
def payloadOf : List CertEntry → List (List Nat) → List Nat
  | .compressed :: es, c :: cs => toLE4 c.length ++ c ++ payloadOf es cs
  | _ :: es, _ :: cs => payloadOf es cs
  | _, _ => []

/-- CompressChain, with the deflate primitive abstracted: serialized entries,
then (only when some entry is COMPRESSED) the 4 uncompressed-length bytes and
the deflated payload, compressed against the per-call dictionary. -/
def compressChain (deflateFn : List Nat → List Nat → List Nat)
    (certs : List (List Nat)) (adv : List Nat) : List Nat :=
  let entries := matchCerts certs adv
  let payload := payloadOf entries certs
  let ser := serializeCertEntries entries
  if payload.isEmpty then ser
  else ser ++ toLE4 payload.length ++ deflateFn (zlibDictForEntries entries certs) payload

/-- Observable zlib inflate statuses the decoder distinguishes. -/
inductive ZStatus where
  | zOk
  | zStreamEnd
  | zNeedDict
  | zErr
deriving DecidableEq

/-- Observable outcome of running inflate to completion over the whole
remaining input: final status, bytes produced, and unconsumed input count
(avail_in after the call). -/
structure InflateRes where
  status : ZStatus
  produced : List Nat
  availIn : Nat
deriving DecidableEq

/-- The two-step inflate protocol of the decoder: inflate without a
dictionary; on Z_NEED_DICT set the per-call dictionary (which can itself
fail) and inflate again. -/
def inflatePhase (inflateFn : Option (List Nat) → List Nat → InflateRes)
    (setDictOk : List Nat → Bool) (dict input : List Nat) : Option InflateRes :=
  let r := inflateFn none input
  if r.status = .zNeedDict then
    if setDictOk dict then some (inflateFn (some dict) input) else none
  else some r

/-- The reassembly loop of DecompressChain: for each COMPRESSED entry read a
4-byte length then that many certificate bytes from the inflated payload,
bounds-checked; CACHED slots are left as the parser filled them.  Returns the
ok flag, the slot list as the loop leaves it (partially updated on failure,
as the source leaves out_certs), and the unconsumed payload.  The source
indexes out_certs by entry index; the lists are always aligned when called
from DecompressChain, so the shape mismatch case is unreachable there. -/
def fillCertsFull : List CertEntry → List (List Nat) → List Nat →
    Bool × List (List Nat) × List Nat
  | [], outs, payload => (true, outs, payload)
  | _ :: _, [], payload => (false, [], payload)
  | .compressed :: es, o :: outs, payload =>
    if payload.length < 4 then (false, o :: outs, payload)
    else
      let len := fromLE (payload.take 4)
      let p2 := payload.drop 4
      if p2.length < len then (false, o :: outs, payload)
      else
        let r := fillCertsFull es outs (p2.drop len)
        (r.1, p2.take len :: r.2.1, r.2.2)
  | .cached _ :: es, o :: outs, payload =>
    let r := fillCertsFull es outs payload
    (r.1, o :: r.2.1, r.2.2)

/-- DecompressChain with the caller-visible out_certs contents made explicit:
the Bool result together with the final contents of the out certificate list
(which the source mutates in place, also on failing runs). -/
def decompressChainFull (inflateFn : Option (List Nat) → List Nat → InflateRes)
    (setDictOk : List Nat → Bool) (input : List Nat) (cache : List (List Nat)) :
    Bool × List (List Nat) :=
  let p := parseLoop cache input [] 0
  if !p.ok then (false, p.certs)
  else
    let inflated : Option (List Nat) :=
      if p.rest.isEmpty then some []
      else if p.rest.length < 4 then none
      else
        let usize := fromLE (p.rest.take 4)
        if 128 * 1024 < usize then none
        else
          match inflatePhase inflateFn setDictOk
              (zlibDictForEntries p.entries p.certs) (p.rest.drop 4) with
          | none => none
          | some r =>
            if r.status = .zStreamEnd ∧ r.produced.length = usize ∧ r.availIn = 0
            then some r.produced else none
    match inflated with
    | none => (false, p.certs)
    | some payload =>
      let f := fillCertsFull p.entries p.certs payload
      if f.1 then (if f.2.2.isEmpty then (true, f.2.1) else (false, f.2.1))
      else (false, f.2.1)

/-- DecompressChain as the callers consume it: the reconstructed chain on
success, failure otherwise. -/
def decompressChain (inflateFn : Option (List Nat) → List Nat → InflateRes)
    (setDictOk : List Nat → Bool) (input : List Nat) (cache : List (List Nat)) :
    Option (List (List Nat)) :=
  let r := decompressChainFull inflateFn setDictOk input cache
  if r.1 then some r.2 else none

/-- Identity deflate: a concrete instance of the external compression
primitive for witnesses. -/
def idDeflate (_dict payload : List Nat) : List Nat := payload

/-- Identity inflate matching idDeflate: asks for the dictionary first, then
returns the input unchanged with everything consumed. -/
def idInflate : Option (List Nat) → List Nat → InflateRes
  | none, input => ⟨.zNeedDict, [], input.length⟩
  | some _, input => ⟨.zStreamEnd, input, 0⟩

/-- Dictionary setting that always succeeds, for witnesses. -/
def trueSd (_dict : List Nat) : Bool := true

/-- The advertised hash byte string corresponding to a set of cached
certificates: their FNV-1a hashes, each as 8 little-endian bytes,
concatenated. -/
def advOf (cache : List (List Nat)) : List Nat :=
  concatAll (cache.map fun c => toLE8 (fnv1a64 c))

/-- The certificate a parsed entry leaves in its output slot: an empty
placeholder for COMPRESSED, the resolved local-cache certificate for
CACHED. -/
def entryResolve (cache : List (List Nat)) : CertEntry → List Nat
  | .compressed => []
  | .cached h => (lookupCached (hashCerts cache) cache h).getD []

/-- Spec-side reading of the advertised hash string: the sequence of 64-bit
values obtained by cutting it into consecutive 8-byte groups. -/
def leChunks8 (l : List Nat) : List Nat :=
  match l with
  | [] => []
  | a :: rest => fromLE ((a :: rest).take 8) :: leChunks8 ((a :: rest).drop 8)
termination_by l.length
decreasing_by
  simp [List.length_drop]
  omega

/-- Spec-side description of one encoder entry: Cached carrying the
certificate hash exactly when the advertised string is nonempty, has length a
multiple of 8, and contains that hash as one of its 8-byte values; Compressed
otherwise. -/
def specMatchEntry (adv : List Nat) (c : List Nat) : CertEntry :=
  if !adv.isEmpty && adv.length % 8 == 0 && (leChunks8 adv).contains (fnv1a64 c)
  then .cached (fnv1a64 c) else .compressed

/-- Spec-side description of the dictionary: the certificates whose entry is
not Compressed, in reverse index order, concatenated, then the static
corpus. -/
def dictSpec (entries : List CertEntry) (certs : List (List Nat)) : List Nat :=
  concatAll ((((certs.zip entries).filter fun p => isCachedE p.2).map Prod.fst).reverse)
    ++ kCommonCertSubstrings

/-- Spec-side malformedness of an entry list, following the claim: input
exhausted before a 0 terminator, a type byte outside 0, 1, 2, fewer than 8
bytes after a Cached type byte, or a Cached hash matching the hash of no
certificate in the local cache. -/
def entriesMalformed (cache : List (List Nat)) (input : List Nat) : Bool :=
  match input with
  | [] => true
  | 0 :: _ => false
  | 1 :: rest => entriesMalformed cache rest
  | 2 :: rest =>
    if rest.length < 8 then true
    else if (hashCerts cache).contains (fromLE (rest.take 8)) then
      entriesMalformed cache (rest.drop 8)
    else true
  | _ :: _ => true
termination_by input.length
decreasing_by
  all_goals simp [List.length_drop]
  all_goals omega

/-- How a parsed entry governs its output slot: a COMPRESSED entry reserves
an empty placeholder; a CACHED entry fills the slot with the certificate its
hash resolves to in the local cache. -/
def SlotRel (cache : List (List Nat)) (e : CertEntry) (c : List Nat) : Prop :=
  match e with
  | .compressed => c = []
  | .cached h => lookupCached (hashCerts cache) cache h = some c

/-- Alignment relation used for the reassembly proofs: entries, the original
chain, and the parser-produced slot list line up pointwise, COMPRESSED slots
holding placeholders for certificates shorter than 2 ^ 32 bytes and CACHED
slots already holding the original certificate. -/
inductive Aligned : List CertEntry → List (List Nat) → List (List Nat) → Prop where
  | nil : Aligned [] [] []
  | comp {es cs c0s c c0} : c.length < 2 ^ 32 → Aligned es cs c0s →
      Aligned (.compressed :: es) (c :: cs) (c0 :: c0s)
  | cach {es cs c0s c h} : Aligned es cs c0s →
      Aligned (.cached h :: es) (c :: cs) (c :: c0s)

/-- Chain of one certificate whose compressed payload is one byte over the
decoder size ceiling. -/
def bigCertA : List Nat := List.replicate 131069 65

/-- Chain of one certificate whose compressed payload is exactly the decoder
size ceiling. -/
def bigCertB : List Nat := List.replicate 131068 66

/- ------------------------------------------------------------------ -/
/- Basic byte-level lemmas                                             -/
/- ------------------------------------------------------------------ -/

theorem fromLE_nil : fromLE [] = 0 := rfl

theorem fromLE_cons (b : Nat) (l : List Nat) : fromLE (b :: l) = b + 256 * fromLE l := rfl

theorem toLE_length (k n : Nat) : (toLE k n).length = k := by
  induction k generalizing n with
  | zero => simp [toLE]
  | succ k ih => simp [toLE, ih]

theorem fromLE_toLE (k : Nat) : ∀ n, fromLE (toLE k n) = n % 256 ^ k := by
  induction k with
  | zero => intro n; simp [toLE, fromLE, Nat.mod_one]
  | succ k ih =>
    intro n
    rw [toLE, fromLE_cons, ih]
    have h1 : (256 : Nat) ^ (k + 1) = 256 * 256 ^ k := by ring
    rw [h1]
    have h2 := Nat.div_add_mod (n % (256 * 256 ^ k)) 256
    have h3 : n % (256 * 256 ^ k) / 256 = n / 256 % 256 ^ k :=
      Nat.mod_mul_right_div_self n 256 (256 ^ k)
    have h4 : n % (256 * 256 ^ k) % 256 = n % 256 :=
      Nat.mod_mod_of_dvd n ⟨256 ^ k, rfl⟩
    omega

theorem fromLE_toLE8 (n : Nat) (h : n < 2 ^ 64) : fromLE (toLE8 n) = n := by
  have : (256 : Nat) ^ 8 = 2 ^ 64 := by norm_num
  rw [toLE8, fromLE_toLE, this, Nat.mod_eq_of_lt h]

theorem fromLE_toLE4 (n : Nat) (h : n < 2 ^ 32) : fromLE (toLE4 n) = n := by
  have : (256 : Nat) ^ 4 = 2 ^ 32 := by norm_num
  rw [toLE4, fromLE_toLE, this, Nat.mod_eq_of_lt h]

theorem concatAll_nil : concatAll [] = [] := rfl

theorem concatAll_cons (a : List Nat) (l : List (List Nat)) :
    concatAll (a :: l) = a ++ concatAll l := rfl

theorem fnv1a64_lt (bytes : List Nat) : fnv1a64 bytes < 2 ^ 64 := by
  rw [fnv1a64]
  induction bytes using List.reverseRecOn with
  | nil => norm_num
  | append_singleton l b _ =>
    rw [List.foldl_append]
    exact Nat.mod_lt _ (by norm_num)

/- ------------------------------------------------------------------ -/
/- Cache matching and resolution lemmas                                -/
/- ------------------------------------------------------------------ -/

theorem hashCerts_nil : hashCerts [] = [] := rfl

theorem hashCerts_cons (c : List Nat) (cs : List (List Nat)) :
    hashCerts (c :: cs) = fnv1a64 c :: hashCerts cs := rfl

theorem hashCerts_length (cs : List (List Nat)) : (hashCerts cs).length = cs.length := by
  simp [hashCerts]

theorem lookupCached_eq_find (cache : List (List Nat)) (h : Nat) :
    lookupCached (hashCerts cache) cache h = cache.find? (fun c => fnv1a64 c == h) := by
  induction cache with
  | nil => rfl
  | cons c cs ih =>
    rw [hashCerts_cons, lookupCached]
    by_cases hc : fnv1a64 c = h
    · have hb : (fnv1a64 c == h) = true := beq_iff_eq.mpr hc
      simp [hc, List.find?, hb]
    · have hb : (fnv1a64 c == h) = false := beq_eq_false_iff_ne.mpr hc
      simp [hc, List.find?, hb, ih]

theorem lookupCached_isSome (cache : List (List Nat)) (h : Nat) :
    (lookupCached (hashCerts cache) cache h).isSome = (hashCerts cache).contains h := by
  induction cache with
  | nil => rfl
  | cons c cs ih =>
    rw [hashCerts_cons, lookupCached]
    by_cases hc : fnv1a64 c = h
    · simp [hc, List.contains_cons]
    · simp [hc, List.contains_cons, ih, Ne.symm hc]

theorem matchOne_eq_contains (h : Nat) :
    ∀ (n : Nat) (adv : List Nat), adv.length ≤ n → adv.length % 8 = 0 →
      matchOne h adv = (leChunks8 adv).contains h := by
  intro n
  induction n with
  | zero =>
    intro adv hlen _
    have hadv : adv = [] := List.eq_nil_of_length_eq_zero (Nat.le_zero.mp hlen)
    subst hadv
    simp [matchOne, leChunks8]
  | succ n ih =>
    intro adv hlen hmod
    match adv with
    | [] => simp [matchOne, leChunks8]
    | [a0] | [a0, a1] | [a0, a1, a2] | [a0, a1, a2, a3] | [a0, a1, a2, a3, a4]
    | [a0, a1, a2, a3, a4, a5] | [a0, a1, a2, a3, a4, a5, a6] =>
      simp only [List.length_cons, List.length_nil] at hmod
      omega
    | a0 :: a1 :: a2 :: a3 :: a4 :: a5 :: a6 :: a7 :: rest =>
      rw [matchOne, leChunks8, List.contains_cons]
      have htk : (a0 :: a1 :: a2 :: a3 :: a4 :: a5 :: a6 :: a7 :: rest).take 8
          = [a0, a1, a2, a3, a4, a5, a6, a7] := rfl
      have hdr : (a0 :: a1 :: a2 :: a3 :: a4 :: a5 :: a6 :: a7 :: rest).drop 8 = rest := rfl
      rw [htk, hdr]
      have hlen2 : rest.length ≤ n := by
        simp only [List.length_cons] at hlen
        omega
      have hmod2 : rest.length % 8 = 0 := by
        simp only [List.length_cons] at hmod
        omega
      by_cases hc : fromLE [a0, a1, a2, a3, a4, a5, a6, a7] = h
      · have hb : (h == fromLE [a0, a1, a2, a3, a4, a5, a6, a7]) = true :=
          beq_iff_eq.mpr hc.symm
        rw [if_pos hc, hb]
        simp
      · have hb : (h == fromLE [a0, a1, a2, a3, a4, a5, a6, a7]) = false :=
          beq_eq_false_iff_ne.mpr (Ne.symm hc)
        rw [if_neg hc, hb, ih _ hlen2 hmod2]
        simp [List.contains]

theorem matchCerts_eq_map (certs : List (List Nat)) (adv : List Nat) :
    matchCerts certs adv = certs.map (specMatchEntry adv) := by
  rw [matchCerts]
  apply List.map_congr_left
  intro c _
  rw [specMatchEntry]
  by_cases h1 : adv.length % 8 = 0
  · by_cases h2 : adv.isEmpty
    · simp [h1, h2]
    · simp [h1, h2, matchOne_eq_contains (fnv1a64 c) adv.length adv (le_refl _) h1]
  · simp [h1]

/- ------------------------------------------------------------------ -/
/- Parse lemmas                                                        -/
/- ------------------------------------------------------------------ -/

theorem serialize_cons (e : CertEntry) (es : List CertEntry) :
    serializeCertEntries (e :: es) = encodeEntry e ++ serializeCertEntries es := by
  simp [serializeCertEntries, entryBytes]

/-- The lazily recomputed hash list always equals the hash list of the cache
whenever the incoming memo is either still empty or already the memoised hash
list. -/
theorem hashesUpdate_eq (cache : List (List Nat)) (hashes : List Nat)
    (hgs : hashes = [] ∨ hashes = hashCerts cache) :
    (if hashes.length ≠ cache.length then hashCerts cache else hashes) = hashCerts cache := by
  rcases hgs with hh | hh
  · subst hh
    by_cases hc : cache.length = 0
    · have hnil : cache = [] := List.eq_nil_of_length_eq_zero hc
      subst hnil
      simp [hashCerts]
    · rw [if_pos (by simpa using Ne.symm hc)]
  · subst hh
    rw [if_neg (by simp [hashCerts_length])]

/-- Parsing the serialization of a well-resolvable entry list consumes
exactly the serialized bytes, reproduces the entries, and fills each slot
with the resolved certificate. -/
theorem parse_serialize (cache : List (List Nat)) :
    ∀ (entries : List CertEntry) (tail hashes : List Nat) (calls : Nat),
      (hashes = [] ∨ hashes = hashCerts cache) →
      (∀ h, CertEntry.cached h ∈ entries →
        h < 2 ^ 64 ∧ (lookupCached (hashCerts cache) cache h).isSome = true) →
      ∃ k, parseLoop cache (serializeCertEntries entries ++ tail) hashes calls
        = ⟨true, entries, entries.map (entryResolve cache), tail, k⟩ := by
  intro entries
  induction entries with
  | nil =>
    intro tail hashes calls _ _
    refine ⟨calls, ?_⟩
    have hb : serializeCertEntries [] ++ tail = 0 :: tail := rfl
    rw [hb, parseLoop]
    simp
  | cons e es ih =>
    intro tail hashes calls hgs hwf
    cases e with
    | compressed =>
      obtain ⟨k, hk⟩ := ih tail hashes calls hgs
        (fun h hm => hwf h (List.mem_cons_of_mem _ hm))
      refine ⟨k, ?_⟩
      have hb : serializeCertEntries (CertEntry.compressed :: es) ++ tail
          = 1 :: (serializeCertEntries es ++ tail) := by
        simp [serialize_cons, encodeEntry]
      rw [hb, parseLoop, hk]
      simp [entryResolve]
    | cached hv =>
      obtain ⟨hlt, hsome⟩ := hwf hv (List.mem_cons_self _ _)
      obtain ⟨cert, hcert⟩ := Option.isSome_iff_exists.mp hsome
      have hb : serializeCertEntries (CertEntry.cached hv :: es) ++ tail
          = 2 :: (toLE8 hv ++ (serializeCertEntries es ++ tail)) := by
        simp [serialize_cons, encodeEntry]
      have hlen8 : (toLE8 hv).length = 8 := toLE_length 8 hv
      have hlen : (toLE8 hv ++ (serializeCertEntries es ++ tail)).length
          = 8 + (serializeCertEntries es ++ tail).length := by
        simp [hlen8]
      have htake : (toLE8 hv ++ (serializeCertEntries es ++ tail)).take 8 = toLE8 hv := by
        rw [← hlen8, List.take_left]
      have hdrop : (toLE8 hv ++ (serializeCertEntries es ++ tail)).drop 8
          = serializeCertEntries es ++ tail := by
        rw [← hlen8, List.drop_left]
      obtain ⟨k, hk⟩ := ih tail (hashCerts cache)
        (if hashes.length ≠ cache.length then calls + 1 else calls) (Or.inr rfl)
        (fun h hm => hwf h (List.mem_cons_of_mem _ hm))
      refine ⟨k, ?_⟩
      rw [hb, parseLoop]
      rw [if_neg (by omega)]
      simp only [htake, hdrop, fromLE_toLE8 hv hlt, hashesUpdate_eq cache hashes hgs,
        hcert, hk]
      simp [entryResolve, hcert]

/-- The parse loop stops with ok = false exactly on the malformedness
conditions of the claim, for any well-formed memo state. -/
theorem parse_fail_iff (cache : List (List Nat)) :
    ∀ (n : Nat) (input : List Nat), input.length ≤ n →
      ∀ (hashes : List Nat) (calls : Nat),
        (hashes = [] ∨ hashes = hashCerts cache) →
        ((parseLoop cache input hashes calls).ok = false ↔
          entriesMalformed cache input = true) := by
  intro n
  induction n with
  | zero =>
    intro input hlen hashes calls _
    have hnil : input = [] := List.eq_nil_of_length_eq_zero (Nat.le_zero.mp hlen)
    subst hnil
    rw [parseLoop, entriesMalformed]
    simp
  | succ n ih =>
    intro input hlen hashes calls hgs
    cases input with
    | nil =>
      rw [parseLoop, entriesMalformed]
      simp
    | cons t rest =>
      match t with
      | 0 =>
        rw [parseLoop, entriesMalformed]
        simp
      | 1 =>
        rw [parseLoop, entriesMalformed]
        have hr : rest.length ≤ n := by
          simp only [List.length_cons] at hlen
          omega
        simpa using ih rest hr hashes calls hgs
      | 2 =>
        rw [parseLoop, entriesMalformed]
        by_cases h8 : rest.length < 8
        · simp [h8]
        · cases hlk : lookupCached (hashCerts cache) cache (fromLE (rest.take 8)) with
          | none =>
            have hcont : (hashCerts cache).contains (fromLE (rest.take 8)) = false := by
              rw [← lookupCached_isSome, hlk]
              rfl
            simp only [if_neg h8, hashesUpdate_eq cache hashes hgs, hlk, hcont]
            simp
          | some cert =>
            have hcont : (hashCerts cache).contains (fromLE (rest.take 8)) = true := by
              rw [← lookupCached_isSome, hlk]
              rfl
            have hr : (rest.drop 8).length ≤ n := by
              simp only [List.length_cons] at hlen
              simp only [List.length_drop]
              omega
            simp only [if_neg h8, hashesUpdate_eq cache hashes hgs, hlk, hcont]
            simpa using ih (rest.drop 8) hr (hashCerts cache)
              (if hashes.length ≠ cache.length then calls + 1 else calls) (Or.inr rfl)
      | (m + 3) =>
        rw [parseLoop, entriesMalformed]
        all_goals try omega
        all_goals simp

/-- On success, the parsed entry list and the filled slot list are pointwise
related: entry i governs slot i. -/
theorem parse_align (cache : List (List Nat)) :
    ∀ (n : Nat) (input : List Nat), input.length ≤ n →
      ∀ (hashes : List Nat) (calls : Nat),
        (hashes = [] ∨ hashes = hashCerts cache) →
        (parseLoop cache input hashes calls).ok = true →
        List.Forall₂ (SlotRel cache) (parseLoop cache input hashes calls).entries
          (parseLoop cache input hashes calls).certs := by
  intro n
  induction n with
  | zero =>
    intro input hlen hashes calls _ hok
    have hnil : input = [] := List.eq_nil_of_length_eq_zero (Nat.le_zero.mp hlen)
    subst hnil
    rw [parseLoop] at hok
    simp at hok
  | succ n ih =>
    intro input hlen hashes calls hgs hok
    cases input with
    | nil =>
      rw [parseLoop] at hok
      simp at hok
    | cons t rest =>
      match t with
      | 0 =>
        rw [parseLoop]
        exact List.Forall₂.nil
      | 1 =>
        have hr : rest.length ≤ n := by
          simp only [List.length_cons] at hlen
          omega
        rw [parseLoop] at hok ⊢
        refine List.Forall₂.cons ?_ ?_
        · rfl
        · exact ih rest hr hashes calls hgs (by simpa using hok)
      | 2 =>
        by_cases h8 : rest.length < 8
        · rw [parseLoop] at hok
          simp [h8] at hok
        · cases hlk : lookupCached (hashCerts cache) cache (fromLE (rest.take 8)) with
          | none =>
            rw [parseLoop] at hok
            simp only [if_neg h8, hashesUpdate_eq cache hashes hgs, hlk] at hok
            simp at hok
          | some cert =>
            have hr : (rest.drop 8).length ≤ n := by
              simp only [List.length_cons] at hlen
              simp only [List.length_drop]
              omega
            rw [parseLoop] at hok ⊢
            simp only [if_neg h8, hashesUpdate_eq cache hashes hgs, hlk] at hok ⊢
            refine List.Forall₂.cons ?_ ?_
            · exact hlk
            · exact ih (rest.drop 8) hr (hashCerts cache)
                (if hashes.length ≠ cache.length then calls + 1 else calls) (Or.inr rfl)
                (by simpa using hok)
      | (m + 3) =>
        rw [parseLoop] at hok
        all_goals try omega
        all_goals simp at hok

/-- HashCerts runs at most once per parse: once the memo length matches the
cache length it is never recomputed. -/
theorem parse_calls_le (cache : List (List Nat)) :
    ∀ (n : Nat) (input : List Nat), input.length ≤ n →
      ∀ (hashes : List Nat) (calls : Nat),
        (parseLoop cache input hashes calls).calls ≤
          calls + (if hashes.length = cache.length then 0 else 1) := by
  intro n
  induction n with
  | zero =>
    intro input hlen hashes calls
    have hnil : input = [] := List.eq_nil_of_length_eq_zero (Nat.le_zero.mp hlen)
    subst hnil
    rw [parseLoop]
    simp
  | succ n ih =>
    intro input hlen hashes calls
    cases input with
    | nil =>
      rw [parseLoop]
      simp
    | cons t rest =>
      match t with
      | 0 =>
        rw [parseLoop]
        simp
      | 1 =>
        have hr : rest.length ≤ n := by
          simp only [List.length_cons] at hlen
          omega
        rw [parseLoop]
        simpa using ih rest hr hashes calls
      | 2 =>
        by_cases h8 : rest.length < 8
        · rw [parseLoop]
          simp [h8]
        · have hr : (rest.drop 8).length ≤ n := by
            simp only [List.length_cons] at hlen
            simp only [List.length_drop]
            omega
          rw [parseLoop]
          by_cases heq : hashes.length = cache.length
          · simp only [if_neg h8, heq, ne_eq, not_true_eq_false, if_neg, if_false]
            cases hlk : lookupCached hashes cache (fromLE (rest.take 8)) with
            | none => simp [heq]
            | some cert =>
              have := ih (rest.drop 8) hr hashes calls
              simp only [heq, if_pos rfl] at this ⊢
              simpa using this
          · simp only [if_neg h8, heq, ne_eq, not_false_eq_true, if_pos, if_true]
            cases hlk : lookupCached (hashCerts cache) cache (fromLE (rest.take 8)) with
            | none => simp [heq]
            | some cert =>
              have := ih (rest.drop 8) hr (hashCerts cache) (calls + 1)
              simp only [hashCerts_length, if_pos rfl] at this
              simp only [heq, if_neg heq, if_false]
              simpa using this
      | (m + 3) =>
        rw [parseLoop]
        all_goals try omega
        all_goals simp

/-- The cache hashing is lazy: a successful parse that produced no CACHED
entry never ran HashCerts. -/
theorem parse_calls_lazy (cache : List (List Nat)) :
    ∀ (n : Nat) (input : List Nat), input.length ≤ n →
      ∀ (hashes : List Nat) (calls : Nat),
        (parseLoop cache input hashes calls).ok = true →
        (parseLoop cache input hashes calls).entries.countP isCachedE = 0 →
        (parseLoop cache input hashes calls).calls = calls := by
  intro n
  induction n with
  | zero =>
    intro input hlen hashes calls hok _
    have hnil : input = [] := List.eq_nil_of_length_eq_zero (Nat.le_zero.mp hlen)
    subst hnil
    rw [parseLoop] at hok
    simp at hok
  | succ n ih =>
    intro input hlen hashes calls hok hcnt
    cases input with
    | nil =>
      rw [parseLoop] at hok
      simp at hok
    | cons t rest =>
      match t with
      | 0 =>
        rw [parseLoop]
      | 1 =>
        have hr : rest.length ≤ n := by
          simp only [List.length_cons] at hlen
          omega
        rw [parseLoop] at hok hcnt ⊢
        refine ih rest hr hashes calls (by simpa using hok) ?_
        simpa [isCachedE] using hcnt
      | 2 =>
        by_cases h8 : rest.length < 8
        · rw [parseLoop] at hok
          simp [h8] at hok
        · cases hlk : lookupCached
              (if hashes.length ≠ cache.length then hashCerts cache else hashes)
              cache (fromLE (rest.take 8)) with
          | none =>
            rw [parseLoop] at hok
            simp only [if_neg h8, hlk] at hok
            simp at hok
          | some cert =>
            rw [parseLoop] at hcnt
            simp only [if_neg h8, hlk] at hcnt
            simp [isCachedE] at hcnt
      | (m + 3) =>
        rw [parseLoop] at hok
        all_goals try omega
        all_goals simp at hok

/- ------------------------------------------------------------------ -/
/- Reassembly lemmas                                                   -/
/- ------------------------------------------------------------------ -/

theorem aligned_lengths {entries : List CertEntry} {certs certs0 : List (List Nat)}
    (hal : Aligned entries certs certs0) :
    entries.length = certs.length ∧ entries.length = certs0.length := by
  induction hal with
  | nil => simp
  | comp _ _ ih =>
    simp only [List.length_cons]
    omega
  | cach _ ih =>
    simp only [List.length_cons]
    omega

/-- Filling the aligned slots from the exact payload succeeds, reconstructs
the original chain, and consumes the payload exactly. -/
theorem fill_ok {entries : List CertEntry} {certs certs0 : List (List Nat)}
    (hal : Aligned entries certs certs0) :
    ∀ extra, fillCertsFull entries certs0 (payloadOf entries certs ++ extra)
      = (true, certs, extra) := by
  induction hal with
  | nil =>
    intro extra
    simp [fillCertsFull, payloadOf]
  | @comp es cs c0s c c0 hclen _ ih =>
    intro extra
    rw [payloadOf, fillCertsFull]
    have h4 : (toLE4 c.length).length = 4 := toLE_length 4 _
    simp only [List.append_assoc]
    have hlen : (toLE4 c.length ++ (c ++ (payloadOf es cs ++ extra))).length
        = 4 + (c ++ (payloadOf es cs ++ extra)).length := by
      simp [h4]
    rw [if_neg (by omega)]
    have htake : (toLE4 c.length ++ (c ++ (payloadOf es cs ++ extra))).take 4
        = toLE4 c.length := by
      rw [← h4, List.take_left]
    have hdrop : (toLE4 c.length ++ (c ++ (payloadOf es cs ++ extra))).drop 4
        = c ++ (payloadOf es cs ++ extra) := by
      rw [← h4, List.drop_left]
    have hclen2 : (c ++ (payloadOf es cs ++ extra)).length
        = c.length + (payloadOf es cs ++ extra).length := by
      simp
    simp only [htake, hdrop, fromLE_toLE4 c.length hclen]
    rw [if_neg (by omega)]
    have htakec : (c ++ (payloadOf es cs ++ extra)).take c.length = c :=
      List.take_left c _
    have hdropc : (c ++ (payloadOf es cs ++ extra)).drop c.length
        = payloadOf es cs ++ extra := List.drop_left c _
    simp only [htakec, hdropc, ih extra]
  | @cach es cs c0s c h _ ih =>
    intro extra
    rw [payloadOf, fillCertsFull]
    · simp only [ih extra]
    · simp

theorem dictLoop_congr (entries entries2 : List CertEntry)
    (certs certs2 : List (List Nat)) :
    ∀ k, (∀ i, i < k → dictPick entries certs i = dictPick entries2 certs2 i) →
      dictLoop entries certs k = dictLoop entries2 certs2 k := by
  intro k
  induction k with
  | zero => intro _; rfl
  | succ k ih =>
    intro hp
    rw [dictLoop, dictLoop, hp k (Nat.lt_succ_self k),
      ih (fun i hi => hp i (Nat.lt_succ_of_lt hi))]

theorem getD_append_lt {α : Type} (l l2 : List α) (d : α) :
    ∀ i, i < l.length → (l ++ l2).getD i d = l.getD i d := by
  induction l with
  | nil => intro i hi; simp at hi
  | cons a as ih =>
    intro i hi
    cases i with
    | zero => simp [List.getD]
    | succ i =>
      simp only [List.cons_append, List.getD_cons_succ]
      exact ih i (by simpa using hi)

theorem getD_append_len {α : Type} (l : List α) (a d : α) :
    (l ++ [a]).getD l.length d = a := by
  induction l with
  | nil => simp [List.getD]
  | cons b bs ih =>
    simp only [List.cons_append, List.length_cons, List.getD_cons_succ]
    exact ih

theorem aligned_getD {entries : List CertEntry} {certs certs0 : List (List Nat)}
    (hal : Aligned entries certs certs0) :
    ∀ i, entries.getD i .compressed = .compressed ∨
      certs0.getD i [] = certs.getD i [] := by
  induction hal with
  | nil => intro i; left; simp [List.getD]
  | comp _ _ ih =>
    intro i
    cases i with
    | zero => left; rfl
    | succ i => simpa using ih i
  | cach _ ih =>
    intro i
    cases i with
    | zero => right; rfl
    | succ i => simpa using ih i

/-- The dictionary the decoder builds from the parser-filled slots equals the
dictionary the encoder builds from the full chain: COMPRESSED indices
contribute nothing on either side, and CACHED slots hold the original
certificates. -/
theorem dict_resolved {entries : List CertEntry} {certs certs0 : List (List Nat)}
    (hal : Aligned entries certs certs0) :
    zlibDictForEntries entries certs0 = zlibDictForEntries entries certs := by
  obtain ⟨h1, h2⟩ := aligned_lengths hal
  rw [zlibDictForEntries, zlibDictForEntries, ← h1, ← h2]
  congr 1
  apply dictLoop_congr
  intro i _
  rw [dictPick, dictPick]
  rcases aligned_getD hal i with hc | hc
  · rw [hc]
  · cases entries.getD i CertEntry.compressed with
    | compressed => rfl
    | cached h => simpa using hc

/- ------------------------------------------------------------------ -/
/- Dictionary characterization                                         -/
/- ------------------------------------------------------------------ -/

theorem concatAll_append (a b : List (List Nat)) :
    concatAll (a ++ b) = concatAll a ++ concatAll b := by
  induction a with
  | nil => rfl
  | cons x xs ih => simp [concatAll_cons, ih]

theorem spec_core_foldl :
    ∀ l : List (List Nat × CertEntry),
      concatAll (((l.filter fun p => isCachedE p.2).map Prod.fst).reverse)
        = l.foldl (fun acc p => if isCachedE p.2 then p.1 ++ acc else acc) [] := by
  intro l
  induction l using List.reverseRecOn with
  | nil => rfl
  | append_singleton xs p ih =>
    rw [List.filter_append, List.map_append, List.reverse_append, concatAll_append,
      List.foldl_append, ← ih]
    cases hp : isCachedE p.2 with
    | true => simp [hp, concatAll_cons, concatAll_nil]
    | false => simp [hp, concatAll_nil]

theorem dictLoop_eq_foldl :
    ∀ (certs : List (List Nat)) (entries : List CertEntry),
      entries.length = certs.length →
      dictLoop entries certs certs.length
        = (certs.zip entries).foldl
            (fun acc p => if isCachedE p.2 then p.1 ++ acc else acc) [] := by
  intro certs
  induction certs using List.reverseRecOn with
  | nil =>
    intro entries hlen
    have hnil : entries = [] := List.eq_nil_of_length_eq_zero (by simpa using hlen)
    subst hnil
    rfl
  | append_singleton cs c ih =>
    intro entries hlen
    cases entries using List.reverseRecOn with
    | nil => simp at hlen
    | append_singleton es e =>
      have hlen2 : es.length = cs.length := by
        simp only [List.length_append, List.length_singleton] at hlen
        omega
      have hzip : (cs ++ [c]).zip (es ++ [e]) = cs.zip es ++ [(c, e)] := by
        rw [List.zip_append hlen2.symm]
        rfl
      have hloopapp : dictLoop (es ++ [e]) (cs ++ [c]) cs.length = dictLoop es cs cs.length := by
        apply dictLoop_congr
        intro i hi
        rw [dictPick, dictPick,
          getD_append_lt es [e] _ i (by omega),
          getD_append_lt cs [c] _ i (by omega)]
      have hpick : dictPick (es ++ [e]) (cs ++ [c]) cs.length
          = if isCachedE e then c else [] := by
        rw [dictPick]
        have h1 : (es ++ [e]).getD cs.length CertEntry.compressed = e := by
          rw [← hlen2]
          exact getD_append_len es e _
        have h2 : (cs ++ [c]).getD cs.length [] = c := getD_append_len cs c _
        rw [h1, h2]
        cases e <;> simp [isCachedE]
      have hlensucc : (cs ++ [c]).length = cs.length + 1 := by simp
      rw [hlensucc, dictLoop, hloopapp, ih es hlen2, hzip, List.foldl_append, hpick]
      cases he : isCachedE e <;> simp [he]

/-- The source dictionary builder computes exactly the spec-side dictionary:
certificates of non-Compressed entries in reverse index order, then the
static corpus. -/
theorem zlibDict_eq_dictSpec (entries : List CertEntry) (certs : List (List Nat))
    (h : entries.length = certs.length) :
    zlibDictForEntries entries certs = dictSpec entries certs := by
  rw [zlibDictForEntries, dictSpec, dictLoop_eq_foldl certs entries h, spec_core_foldl]

/- ------------------------------------------------------------------ -/
/- Advertised-hash and resolution lemmas for the round trip            -/
/- ------------------------------------------------------------------ -/

theorem leChunks8_advOf (cache : List (List Nat)) :
    leChunks8 (advOf cache) = hashCerts cache := by
  induction cache with
  | nil =>
    rw [advOf]
    simp [concatAll, leChunks8, hashCerts]
  | cons c cs ih =>
    have hadv : advOf (c :: cs) = toLE8 (fnv1a64 c) ++ advOf cs := by
      simp [advOf, concatAll_cons]
    have hlen8 : (toLE8 (fnv1a64 c)).length = 8 := toLE_length 8 _
    cases hsh : toLE8 (fnv1a64 c) with
    | nil =>
      rw [hsh] at hlen8
      simp at hlen8
    | cons a xs =>
      rw [hsh] at hlen8
      have hcons : advOf (c :: cs) = a :: (xs ++ advOf cs) := by
        rw [hadv, hsh]
        rfl
      rw [hcons, leChunks8]
      have hx : a :: (xs ++ advOf cs) = (a :: xs) ++ advOf cs := rfl
      rw [hx, ← hlen8, List.take_left, List.drop_left, ← hsh,
        fromLE_toLE8 _ (fnv1a64_lt c), ih, hashCerts_cons]

/-- When the hashes of the certificate and the cache are collision-free, the
decoder resolution of the certificate hash returns the certificate itself. -/
theorem resolve_self (cache : List (List Nat)) (c : List Nat)
    (hcoll : ∀ kc ∈ cache, fnv1a64 c = fnv1a64 kc → c = kc)
    (hmem : fnv1a64 c ∈ hashCerts cache) :
    lookupCached (hashCerts cache) cache (fnv1a64 c) = some c := by
  rw [lookupCached_eq_find]
  obtain ⟨k, hkmem, hk⟩ := List.mem_map.mp (by simpa [hashCerts] using hmem)
  have hsome : (cache.find? fun kc => fnv1a64 kc == fnv1a64 c).isSome := by
    rw [List.find?_isSome]
    exact ⟨k, hkmem, by simp [hk]⟩
  obtain ⟨k0, hk0⟩ := Option.isSome_iff_exists.mp hsome
  have hmem0 : k0 ∈ cache := List.mem_of_find?_eq_some hk0
  have hfk0 : fnv1a64 k0 = fnv1a64 c := by
    have hp := List.find?_some hk0
    simpa using hp
  have hck : c = k0 := hcoll k0 hmem0 hfk0.symm
  rw [hk0, ← hck]

/-- Every CACHED entry the matcher emits carries a hash below 2 ^ 64 that
resolves in the cache. -/
theorem match_cached_wf (cache : List (List Nat)) (certs : List (List Nat))
    (hcoll : ∀ c ∈ certs, ∀ kc ∈ cache, fnv1a64 c = fnv1a64 kc → c = kc) :
    ∀ h, CertEntry.cached h ∈ certs.map (specMatchEntry (advOf cache)) →
      h < 2 ^ 64 ∧ (lookupCached (hashCerts cache) cache h).isSome = true := by
  intro h hmem
  obtain ⟨c, hc, hs⟩ := List.mem_map.mp hmem
  rw [specMatchEntry] at hs
  split at hs
  case isTrue hcond =>
    injection hs with hh
    subst hh
    refine ⟨fnv1a64_lt c, ?_⟩
    simp only [Bool.and_eq_true] at hcond
    have hmem2 : fnv1a64 c ∈ hashCerts cache := by
      rw [← leChunks8_advOf]
      simpa using hcond.2
    rw [resolve_self cache c (hcoll c hc) hmem2]
    rfl
  case isFalse hcond => exact absurd hs (by simp)

theorem payload_map_bound (f : List Nat → CertEntry) :
    ∀ (certs : List (List Nat)) (c : List Nat), c ∈ certs →
      isCachedE (f c) = false →
      c.length ≤ (payloadOf (certs.map f) certs).length := by
  intro certs
  induction certs with
  | nil =>
    intro c hc _
    simp at hc
  | cons c0 cs ih =>
    intro c hc hf
    cases hf0 : f c0 with
    | compressed =>
      have hp : payloadOf ((c0 :: cs).map f) (c0 :: cs)
          = toLE4 c0.length ++ c0 ++ payloadOf (cs.map f) cs := by
        rw [List.map_cons, hf0, payloadOf]
      rcases List.mem_cons.mp hc with rfl | hc2
      · rw [hp]
        simp only [List.length_append]
        omega
      · have hle := ih c hc2 hf
        rw [hp]
        simp only [List.length_append]
        omega
    | cached hv =>
      have hp : payloadOf ((c0 :: cs).map f) (c0 :: cs) = payloadOf (cs.map f) cs := by
        rw [List.map_cons, hf0, payloadOf]
        simp
      rcases List.mem_cons.mp hc with rfl | hc2
      · rw [hf0] at hf
        simp [isCachedE] at hf
      · rw [hp]
        exact ih c hc2 hf

/-- The matcher entries, the chain and the resolved slot list are aligned
whenever hashes are collision-free and every compressed certificate fits a
uint32 length. -/
theorem aligned_construct (cache : List (List Nat)) :
    ∀ certs : List (List Nat),
      (∀ c ∈ certs, ∀ kc ∈ cache, fnv1a64 c = fnv1a64 kc → c = kc) →
      (∀ c ∈ certs, isCachedE (specMatchEntry (advOf cache) c) = false →
        c.length < 2 ^ 32) →
      Aligned (certs.map (specMatchEntry (advOf cache))) certs
        ((certs.map (specMatchEntry (advOf cache))).map (entryResolve cache)) := by
  intro certs
  induction certs with
  | nil =>
    intro _ _
    exact Aligned.nil
  | cons c cs ih =>
    intro hcoll hbound
    have ihx := ih (fun x hx => hcoll x (List.mem_cons_of_mem _ hx))
      (fun x hx => hbound x (List.mem_cons_of_mem _ hx))
    rw [List.map_cons, List.map_cons]
    cases hs : specMatchEntry (advOf cache) c with
    | compressed =>
      exact Aligned.comp
        (hbound c (List.mem_cons_self _ _) (by rw [hs]; rfl)) ihx
    | cached hv =>
      have hres : entryResolve cache (CertEntry.cached hv) = c := by
        rw [specMatchEntry] at hs
        split at hs
        case isTrue hcond =>
          injection hs with hh
          subst hh
          simp only [Bool.and_eq_true] at hcond
          have hmem2 : fnv1a64 c ∈ hashCerts cache := by
            rw [← leChunks8_advOf]
            simpa using hcond.2
          rw [entryResolve,
            resolve_self cache c (hcoll c (List.mem_cons_self _ _)) hmem2]
          rfl
        case isFalse hcond => exact absurd hs (by simp)
      rw [hres]
      exact Aligned.cach ihx

/-- Round trip of the codec under the documented contract of the external
compression primitive, a collision-free hash situation, and a compressed
payload within the decoder ceiling. -/
theorem roundtrip_main
    (deflateFn : List Nat → List Nat → List Nat)
    (inflateFn : Option (List Nat) → List Nat → InflateRes)
    (setDictOk : List Nat → Bool)
    (hinf1 : ∀ d p, (inflateFn none (deflateFn d p)).status = ZStatus.zNeedDict)
    (hinf2 : ∀ d p, inflateFn (some d) (deflateFn d p) = ⟨ZStatus.zStreamEnd, p, 0⟩)
    (hsd : ∀ d, setDictOk d = true)
    (certs cache : List (List Nat))
    (hcoll : ∀ c ∈ certs, ∀ kc ∈ cache, fnv1a64 c = fnv1a64 kc → c = kc)
    (hsize : (payloadOf (matchCerts certs (advOf cache)) certs).length ≤ 128 * 1024) :
    decompressChain inflateFn setDictOk
      (compressChain deflateFn certs (advOf cache)) cache = some certs := by
  have hmc : matchCerts certs (advOf cache) = certs.map (specMatchEntry (advOf cache)) :=
    matchCerts_eq_map certs (advOf cache)
  rw [hmc] at hsize
  have h32 : (2 : Nat) ^ 32 = 4294967296 := by norm_num
  have hbound : ∀ c ∈ certs, isCachedE (specMatchEntry (advOf cache) c) = false →
      c.length < 2 ^ 32 := by
    intro c hc hf
    have h1 := payload_map_bound (specMatchEntry (advOf cache)) certs c hc hf
    omega
  have hal : Aligned (certs.map (specMatchEntry (advOf cache))) certs
      ((certs.map (specMatchEntry (advOf cache))).map (entryResolve cache)) :=
    aligned_construct cache certs hcoll hbound
  have hfill := fill_ok hal []
  rw [List.append_nil] at hfill
  have hdict := dict_resolved hal
  rw [List.map_map] at hfill hdict
  rw [compressChain, hmc]
  by_cases hpe : (payloadOf (certs.map (specMatchEntry (advOf cache))) certs).isEmpty
  · -- no compressed certificate: the frame is the serialized entries alone
    have hpnil : payloadOf (certs.map (specMatchEntry (advOf cache))) certs = [] :=
      List.isEmpty_iff.mp hpe
    obtain ⟨k, hk⟩ := parse_serialize cache (certs.map (specMatchEntry (advOf cache)))
      [] [] 0 (Or.inl rfl) (match_cached_wf cache certs hcoll)
    rw [List.append_nil, List.map_map] at hk
    rw [if_pos hpe, decompressChain, decompressChainFull, hk]
    rw [hpnil] at hfill
    simp [hfill]
  · -- at least one compressed certificate: full frame with compressed block
    obtain ⟨k, hk⟩ := parse_serialize cache (certs.map (specMatchEntry (advOf cache)))
      (toLE4 (payloadOf (certs.map (specMatchEntry (advOf cache))) certs).length ++
        deflateFn
          (zlibDictForEntries (certs.map (specMatchEntry (advOf cache))) certs)
          (payloadOf (certs.map (specMatchEntry (advOf cache))) certs))
      [] 0 (Or.inl rfl) (match_cached_wf cache certs hcoll)
    rw [List.map_map] at hk
    rw [if_neg hpe, decompressChain, decompressChainFull]
    rw [List.append_assoc, hk]
    have h4 : (toLE4 (payloadOf (certs.map (specMatchEntry (advOf cache))) certs).length).length
        = 4 := toLE_length 4 _
    have hrestlen :
        (toLE4 (payloadOf (certs.map (specMatchEntry (advOf cache))) certs).length ++
          deflateFn
            (zlibDictForEntries (certs.map (specMatchEntry (advOf cache))) certs)
            (payloadOf (certs.map (specMatchEntry (advOf cache))) certs)).length
        = 4 + (deflateFn
            (zlibDictForEntries (certs.map (specMatchEntry (advOf cache))) certs)
            (payloadOf (certs.map (specMatchEntry (advOf cache))) certs)).length := by
      simp [h4]
    have htake : (toLE4 (payloadOf (certs.map (specMatchEntry (advOf cache))) certs).length ++
          deflateFn
            (zlibDictForEntries (certs.map (specMatchEntry (advOf cache))) certs)
            (payloadOf (certs.map (specMatchEntry (advOf cache))) certs)).take 4
        = toLE4 (payloadOf (certs.map (specMatchEntry (advOf cache))) certs).length := by
      rw [← h4, List.take_left]
    have hdrop : (toLE4 (payloadOf (certs.map (specMatchEntry (advOf cache))) certs).length ++
          deflateFn
            (zlibDictForEntries (certs.map (specMatchEntry (advOf cache))) certs)
            (payloadOf (certs.map (specMatchEntry (advOf cache))) certs)).drop 4
        = deflateFn
            (zlibDictForEntries (certs.map (specMatchEntry (advOf cache))) certs)
            (payloadOf (certs.map (specMatchEntry (advOf cache))) certs) := by
      rw [← h4, List.drop_left]
    have hfromle : fromLE
        (toLE4 (payloadOf (certs.map (specMatchEntry (advOf cache))) certs).length)
        = (payloadOf (certs.map (specMatchEntry (advOf cache))) certs).length :=
      fromLE_toLE4 _ (by omega)
    have hinfl : inflatePhase inflateFn setDictOk
        (zlibDictForEntries (certs.map (specMatchEntry (advOf cache))) certs)
        (deflateFn
          (zlibDictForEntries (certs.map (specMatchEntry (advOf cache))) certs)
          (payloadOf (certs.map (specMatchEntry (advOf cache))) certs))
        = some ⟨ZStatus.zStreamEnd,
            payloadOf (certs.map (specMatchEntry (advOf cache))) certs, 0⟩ := by
      rw [inflatePhase]
      rw [if_pos (hinf1 _ _), hsd, if_pos rfl, hinf2]
    have hne : ¬ ((toLE4 (payloadOf (certs.map (specMatchEntry (advOf cache))) certs).length ++
          deflateFn
            (zlibDictForEntries (certs.map (specMatchEntry (advOf cache))) certs)
            (payloadOf (certs.map (specMatchEntry (advOf cache))) certs)).isEmpty = true) := by
      rw [List.isEmpty_iff]
      intro h0
      have hl := congrArg List.length h0
      rw [hrestlen] at hl
      simp at hl
    rw [if_neg hne]
    rw [if_neg (show ¬ ((toLE4
        (payloadOf (certs.map (specMatchEntry (advOf cache))) certs).length ++
          deflateFn
            (zlibDictForEntries (certs.map (specMatchEntry (advOf cache))) certs)
            (payloadOf (certs.map (specMatchEntry (advOf cache))) certs)).length < 4) by
      rw [hrestlen]
      omega)]
    rw [htake, hfromle]
    rw [if_neg (show ¬ (128 * 1024 <
        (payloadOf (certs.map (specMatchEntry (advOf cache))) certs).length) by omega)]
    rw [hdrop, hdict, hinfl]
    simp [hfill]

/- ------------------------------------------------------------------ -/
/- Entry size arithmetic                                               -/
/- ------------------------------------------------------------------ -/

theorem size_foldl_aux :
    ∀ (entries : List CertEntry) (acc : Nat), acc < 2 ^ 64 →
      entries.foldl
        (fun acc e =>
          match e with
          | .compressed => (acc + 1) % 2 ^ 64
          | .cached _ => ((acc + 1) % 2 ^ 64 + 8) % 2 ^ 64)
        acc
      = (acc + entries.length + 8 * entries.countP isCachedE) % 2 ^ 64 := by
  have hM : (2 : Nat) ^ 64 = 18446744073709551616 := by norm_num
  intro entries
  induction entries with
  | nil =>
    intro acc hacc
    simp only [List.foldl_nil, List.length_nil, List.countP_nil, Nat.add_zero, Nat.mul_zero]
    exact (Nat.mod_eq_of_lt hacc).symm
  | cons e es ih =>
    intro acc hacc
    cases e with
    | compressed =>
      rw [List.foldl_cons]
      have h1 := ih ((acc + 1) % 2 ^ 64) (Nat.mod_lt _ (by norm_num))
      rw [h1, List.countP_cons_of_neg isCachedE es (by simp [isCachedE]), List.length_cons]
      rw [hM] at *
      omega
    | cached hv =>
      rw [List.foldl_cons]
      have h1 := ih (((acc + 1) % 2 ^ 64 + 8) % 2 ^ 64) (Nat.mod_lt _ (by norm_num))
      rw [h1, List.countP_cons_of_pos isCachedE es (by simp [isCachedE]), List.length_cons]
      rw [hM] at *
      omega

/-- CertEntriesSize computes the serialized size in wrapping size_t
arithmetic: the exact count modulo 2 ^ 64. -/
theorem certEntriesSize_eq (entries : List CertEntry) :
    certEntriesSize entries
      = (entries.length + 8 * entries.countP isCachedE + 1) % 2 ^ 64 := by
  have hM : (2 : Nat) ^ 64 = 18446744073709551616 := by norm_num
  rw [certEntriesSize, size_foldl_aux entries 0 (by norm_num)]
  rw [hM]
  omega

theorem countP_replicate_cached (n : Nat) :
    (List.replicate n (CertEntry.cached 0)).countP isCachedE = n := by
  induction n with
  | zero => rfl
  | succ n ih =>
    rw [List.replicate_succ,
      List.countP_cons_of_pos isCachedE _ (by simp [isCachedE]), ih]

/-- The true byte length of the serialization: one byte per entry, 8 more
per cached entry, one terminator. -/
theorem serialize_length (entries : List CertEntry) :
    (serializeCertEntries entries).length
      = entries.length + 8 * entries.countP isCachedE + 1 := by
  induction entries with
  | nil => rfl
  | cons e es ih =>
    rw [serialize_cons]
    cases e with
    | compressed =>
      rw [List.length_append, ih, List.countP_cons_of_neg isCachedE es (by simp [isCachedE]),
        List.length_cons]
      simp [encodeEntry]
      omega
    | cached hv =>
      rw [List.length_append, ih, List.countP_cons_of_pos isCachedE es (by simp [isCachedE]),
        List.length_cons]
      simp [encodeEntry, toLE8, toLE_length]
      omega

/- ------------------------------------------------------------------ -/
/- Decode helpers for the claim statements                             -/
/- ------------------------------------------------------------------ -/

theorem decompressChain_eq_some (inflateFn : Option (List Nat) → List Nat → InflateRes)
    (setDictOk : List Nat → Bool) (input : List Nat) (cache : List (List Nat))
    (out : List (List Nat)) :
    decompressChain inflateFn setDictOk input cache = some out ↔
      decompressChainFull inflateFn setDictOk input cache = (true, out) := by
  rw [decompressChain]
  cases h : decompressChainFull inflateFn setDictOk input cache with
  | mk b cs =>
    cases b with
    | true => simp
    | false => simp

theorem decompressChain_eq_none (inflateFn : Option (List Nat) → List Nat → InflateRes)
    (setDictOk : List Nat → Bool) (input : List Nat) (cache : List (List Nat)) :
    decompressChain inflateFn setDictOk input cache = none ↔
      (decompressChainFull inflateFn setDictOk input cache).1 = false := by
  rw [decompressChain]
  cases h : decompressChainFull inflateFn setDictOk input cache with
  | mk b cs =>
    cases b with
    | true => simp
    | false => simp

/-- A failing parse makes the whole decode fail. -/
theorem decompress_fail_of_parse_fail
    (inflateFn : Option (List Nat) → List Nat → InflateRes)
    (setDictOk : List Nat → Bool) (input : List Nat) (cache : List (List Nat))
    (hfail : (parseLoop cache input [] 0).ok = false) :
    decompressChain inflateFn setDictOk input cache = none := by
  rw [decompressChain_eq_none, decompressChainFull]
  rw [hfail]
  simp

/-- A declared uncompressed length over the ceiling makes decode fail, for
every inflate primitive: the rejection is decided before inflate is
consulted. -/
theorem ceiling_reject (inflateFn : Option (List Nat) → List Nat → InflateRes)
    (setDictOk : List Nat → Bool) (input : List Nat) (cache : List (List Nat))
    (hok : (parseLoop cache input [] 0).ok = true)
    (hlen : 4 ≤ (parseLoop cache input [] 0).rest.length)
    (hceil : 128 * 1024 < fromLE ((parseLoop cache input [] 0).rest.take 4)) :
    decompressChain inflateFn setDictOk input cache = none := by
  rw [decompressChain_eq_none, decompressChainFull]
  have hne : (parseLoop cache input [] 0).rest.isEmpty = false := by
    cases hr : (parseLoop cache input [] 0).rest with
    | nil =>
      rw [hr] at hlen
      simp at hlen
    | cons a l => rfl
  have h4 : ¬ ((parseLoop cache input [] 0).rest.length < 4) := by omega
  simp only [hok, Bool.not_true, Bool.false_eq_true, if_false, hne, h4, if_pos hceil]

/- ------------------------------------------------------------------ -/
/- Claim theorems                                                      -/
/- ------------------------------------------------------------------ -/

/-- C2: cache matching.  For every chain and advertised hash string, the
encoder emits, per certificate in chain order, Cached carrying the
certificate FNV-1a hash exactly when the advertised string is nonempty,
has length a multiple of 8, and one of its 8-byte values equals that hash;
otherwise (including an empty or misaligned advertised string, treated as
empty) the entry is Compressed.  The entry records the certificate hash
itself, so any matching advertised position, first match included, yields
the same entry. -/
theorem c2_cache_matching :
    ∀ (certs : List (List Nat)) (adv : List Nat),
      matchCerts certs adv = certs.map (specMatchEntry adv) :=
  matchCerts_eq_map

/-- C3: dictionary construction.  For equal-length (entries, certs), the
dictionary builder output is exactly the concatenation of the certificates
whose entry is not Compressed, highest index first, followed by the static
common-substrings corpus; and as a pure function it returns byte-identical
output on identical inputs. -/
theorem c3_dictionary (entries : List CertEntry) (certs : List (List Nat))
    (h : entries.length = certs.length) :
    zlibDictForEntries entries certs = dictSpec entries certs ∧
      zlibDictForEntries entries certs = zlibDictForEntries entries certs :=
  ⟨zlibDict_eq_dictSpec entries certs h, rfl⟩

theorem c3_dictionary_witness :
    ([CertEntry.cached 5, CertEntry.compressed] : List CertEntry).length
        = ([[7, 8], [9]] : List (List Nat)).length ∧
      zlibDictForEntries [CertEntry.cached 5, CertEntry.compressed] [[7, 8], [9]]
        = dictSpec [CertEntry.cached 5, CertEntry.compressed] [[7, 8], [9]] :=
  ⟨by decide, (c3_dictionary [CertEntry.cached 5, CertEntry.compressed] [[7, 8], [9]]
      (by decide)).1⟩

/-- C4: entry-list rejection.  The parse loop reports failure exactly on the
malformedness conditions of the claim (input exhausted before the 0
terminator, a type byte outside 0, 1, 2, fewer than 8 bytes after a Cached
type byte, or a Cached hash matching no local-cache certificate hash), and
on any malformed entry list the whole decode returns failure with no partial
result. -/
theorem c4_entry_rejection :
    ∀ (input : List Nat) (cache : List (List Nat)),
      ((parseLoop cache input [] 0).ok = false ↔ entriesMalformed cache input = true) ∧
      (entriesMalformed cache input = true →
        ∀ (inflateFn : Option (List Nat) → List Nat → InflateRes)
          (setDictOk : List Nat → Bool),
          decompressChain inflateFn setDictOk input cache = none) := by
  intro input cache
  have hiff := parse_fail_iff cache input.length input (le_refl _) [] 0 (Or.inl rfl)
  refine ⟨hiff, ?_⟩
  intro hmal inflateFn setDictOk
  exact decompress_fail_of_parse_fail inflateFn setDictOk input cache (hiff.mpr hmal)

theorem c4_entry_rejection_witness :
    entriesMalformed [] [3] = true ∧
      decompressChain idInflate trueSd [3] [] = none :=
  ⟨by simp [entriesMalformed],
    (c4_entry_rejection [3] []).2 (by simp [entriesMalformed]) idInflate trueSd⟩

/-- C7: alignment invariant.  The encoder produces exactly one entry per
certificate, entry i determined by certificate i; and a successful parse
yields entry and slot lists of equal length with entry i governing slot i
(Compressed entries hold an empty placeholder, Cached entries the resolved
certificate). -/
theorem c7_alignment :
    (∀ (certs : List (List Nat)) (adv : List Nat),
      (matchCerts certs adv).length = certs.length ∧
      ∀ i : Nat, (matchCerts certs adv)[i]? = (certs[i]?).map (specMatchEntry adv)) ∧
    (∀ (input : List Nat) (cache : List (List Nat)),
      (parseLoop cache input [] 0).ok = true →
      (parseLoop cache input [] 0).entries.length
          = (parseLoop cache input [] 0).certs.length ∧
      List.Forall₂ (SlotRel cache) (parseLoop cache input [] 0).entries
        (parseLoop cache input [] 0).certs) := by
  constructor
  · intro certs adv
    rw [matchCerts_eq_map]
    refine ⟨List.length_map _ _, ?_⟩
    intro i
    rw [List.getElem?_map]
  · intro input cache hok
    have hal := parse_align cache input.length input (le_refl _) [] 0 (Or.inl rfl) hok
    exact ⟨hal.length_eq, hal⟩

theorem c7_alignment_witness :
    (parseLoop [] [0] [] 0).ok = true ∧
      (parseLoop [] [0] [] 0).entries.length = (parseLoop [] [0] [] 0).certs.length :=
  ⟨by simp [parseLoop], (c7_alignment.2 [0] [] (by simp [parseLoop])).1⟩

/-- C10: decoder first-match cache resolution and lazy hashing.  The cached
resolution returns the first (lowest index) local-cache certificate whose
FNV-1a hash equals the entry hash, so duplicates and collisions resolve
deterministically to the earliest entry; and one decode run computes the
cache hashes at most once, never when a successful run saw no Cached
entry. -/
theorem c10_first_match :
    (∀ (cache : List (List Nat)) (h : Nat),
      lookupCached (hashCerts cache) cache h
        = cache.find? (fun c => fnv1a64 c == h)) ∧
    (∀ (input : List Nat) (cache : List (List Nat)),
      (parseLoop cache input [] 0).calls ≤ 1) ∧
    (∀ (input : List Nat) (cache : List (List Nat)),
      (parseLoop cache input [] 0).ok = true →
      (parseLoop cache input [] 0).entries.countP isCachedE = 0 →
      (parseLoop cache input [] 0).calls = 0) := by
  refine ⟨lookupCached_eq_find, ?_, ?_⟩
  · intro input cache
    have hle := parse_calls_le cache input.length input (le_refl _) [] 0
    by_cases hc : ([] : List Nat).length = cache.length
    · rw [if_pos hc] at hle
      omega
    · rw [if_neg hc] at hle
      omega
  · intro input cache
    exact parse_calls_lazy cache input.length input (le_refl _) [] 0

theorem c10_first_match_witness :
    (parseLoop [] [0] [] 0).ok = true ∧
      (parseLoop [] [0] [] 0).entries.countP isCachedE = 0 ∧
      (parseLoop [] [0] [] 0).calls = 0 :=
  ⟨by simp [parseLoop], by simp [parseLoop],
    c10_first_match.2.2 [0] [] (by simp [parseLoop]) (by simp [parseLoop])⟩

/-- C5: exact consumption.  Whenever decode succeeds: if a compressed block
was present (input remains after the terminator), then the inflate call
ended in the terminal stream-end status, consumed every remaining input
byte, produced exactly the declared number of bytes (which also passed the
ceiling), and the reassembly loop consumed the inflated payload completely;
with no compressed block, the reassembly of the empty payload also left no
unconsumed bytes.  Contrapositively, any shortfall, overrun, non-terminal
status or leftover payload makes decode fail. -/
theorem c5_exact_consumption
    (inflateFn : Option (List Nat) → List Nat → InflateRes)
    (setDictOk : List Nat → Bool) (input : List Nat) (cache : List (List Nat))
    (out : List (List Nat))
    (hsucc : decompressChain inflateFn setDictOk input cache = some out) :
    ((parseLoop cache input [] 0).rest = [] →
      (fillCertsFull (parseLoop cache input [] 0).entries
        (parseLoop cache input [] 0).certs []).2.2 = []) ∧
    ((parseLoop cache input [] 0).rest ≠ [] →
      4 ≤ (parseLoop cache input [] 0).rest.length ∧
      fromLE ((parseLoop cache input [] 0).rest.take 4) ≤ 128 * 1024 ∧
      ∃ r, inflatePhase inflateFn setDictOk
          (zlibDictForEntries (parseLoop cache input [] 0).entries
            (parseLoop cache input [] 0).certs)
          ((parseLoop cache input [] 0).rest.drop 4) = some r ∧
        r.status = ZStatus.zStreamEnd ∧
        r.produced.length = fromLE ((parseLoop cache input [] 0).rest.take 4) ∧
        r.availIn = 0 ∧
        (fillCertsFull (parseLoop cache input [] 0).entries
          (parseLoop cache input [] 0).certs r.produced).2.2 = []) := by
  have hfull := (decompressChain_eq_some _ _ _ _ _).mp hsucc
  rw [decompressChainFull] at hfull
  by_cases hok : (parseLoop cache input [] 0).ok = true
  swap
  · simp only [Bool.not_eq_true] at hok
    rw [hok] at hfull
    simp at hfull
  · simp only [hok, Bool.not_true, Bool.false_eq_true, if_false] at hfull
    by_cases hrest : (parseLoop cache input [] 0).rest = []
    · refine ⟨fun _ => ?_, fun hne => absurd hrest hne⟩
      rw [hrest] at hfull
      simp only [List.isEmpty_nil, if_true] at hfull
      split at hfull
      next =>
        split at hfull
        next hempty => exact List.isEmpty_iff.mp hempty
        next => simp at hfull
      next => simp at hfull
    · refine ⟨fun h0 => absurd h0 hrest, fun _ => ?_⟩
      have hie : (parseLoop cache input [] 0).rest.isEmpty = false := by
        cases hr : (parseLoop cache input [] 0).rest with
        | nil => exact absurd hr hrest
        | cons a l => rfl
      by_cases h4 : (parseLoop cache input [] 0).rest.length < 4
      · simp only [hie, Bool.false_eq_true, if_false, if_pos h4] at hfull
        simp at hfull
      · by_cases hceil : 128 * 1024 < fromLE ((parseLoop cache input [] 0).rest.take 4)
        · simp only [hie, Bool.false_eq_true, if_false, if_neg h4, if_pos hceil] at hfull
          simp at hfull
        · cases hip : inflatePhase inflateFn setDictOk
              (zlibDictForEntries (parseLoop cache input [] 0).entries
                (parseLoop cache input [] 0).certs)
              ((parseLoop cache input [] 0).rest.drop 4) with
          | none =>
            simp only [hie, Bool.false_eq_true, if_false, if_neg h4, if_neg hceil,
              hip] at hfull
            simp at hfull
          | some r =>
            by_cases hcond : r.status = ZStatus.zStreamEnd ∧
                r.produced.length = fromLE ((parseLoop cache input [] 0).rest.take 4) ∧
                r.availIn = 0
            · refine ⟨by omega, by omega, r, rfl, hcond.1, hcond.2.1, hcond.2.2, ?_⟩
              simp only [hie, Bool.false_eq_true, if_false, if_neg h4, if_neg hceil, hip,
                if_pos hcond] at hfull
              split at hfull
              next =>
                split at hfull
                next hempty => exact List.isEmpty_iff.mp hempty
                next => simp at hfull
              next => simp at hfull
            · simp only [hie, Bool.false_eq_true, if_false, if_neg h4, if_neg hceil, hip,
                if_neg hcond] at hfull
              simp at hfull

theorem c5_exact_consumption_witness :
    decompressChain idInflate trueSd [0] [] = some ([] : List (List Nat)) ∧
      ((parseLoop [] [0] [] 0).rest = [] →
        (fillCertsFull (parseLoop [] [0] [] 0).entries
          (parseLoop [] [0] [] 0).certs []).2.2 = []) :=
  ⟨by simp [decompressChain, decompressChainFull, parseLoop, fillCertsFull],
    (c5_exact_consumption idInflate trueSd [0] [] []
      (by simp [decompressChain, decompressChainFull, parseLoop, fillCertsFull])).1⟩

/-- The payload of a single compressed certificate: its 4 length bytes then
its bytes. -/
theorem payload_single (c : List Nat) :
    payloadOf [CertEntry.compressed] [c] = toLE4 c.length ++ (c ++ []) := rfl

/-- The frame written for a single-certificate chain with nothing advertised:
serialized entries, 4 length bytes, deflated payload. -/
theorem frame_single (deflateFn : List Nat → List Nat → List Nat) (c : List Nat) :
    compressChain deflateFn [c] (advOf []) =
      serializeCertEntries [CertEntry.compressed] ++
        (toLE4 (4 + c.length) ++
          deflateFn (zlibDictForEntries [CertEntry.compressed] [c])
            (toLE4 c.length ++ (c ++ []))) := by
  rw [compressChain]
  have hent : matchCerts [c] (advOf []) = [CertEntry.compressed] := by
    simp [matchCerts, advOf, concatAll]
  rw [hent, payload_single c]
  have hplen : (toLE4 c.length ++ (c ++ [])).length = 4 + c.length := by
    simp [toLE4, toLE_length]
  have hne : ¬ ((toLE4 c.length ++ (c ++ [])).isEmpty = true) := by
    rw [List.isEmpty_iff]
    intro h0
    have hl := congrArg List.length h0
    rw [hplen] at hl
    simp at hl
  rw [if_neg hne, hplen, List.append_assoc]

/-- C1 counterexample: a one-certificate chain of 131069 bytes, nothing
cached.  CompressChain writes a frame declaring a 131073-byte payload; the
decoder size ceiling (128 KiB) rejects it, so the round trip fails. -/
theorem c1_roundtrip_counterexample :
    decompressChain idInflate trueSd
      (compressChain idDeflate [bigCertA] (advOf [])) [] = none := by
  have hlenA : bigCertA.length = 131069 := by
    simp only [bigCertA, List.length_replicate]
  rw [frame_single idDeflate bigCertA, hlenA]
  obtain ⟨k, hk⟩ := parse_serialize [] [CertEntry.compressed]
    (toLE4 (4 + 131069) ++
      idDeflate (zlibDictForEntries [CertEntry.compressed] [bigCertA])
        (toLE4 131069 ++ (bigCertA ++ [])))
    [] 0 (Or.inl rfl) (by intro h hm; simp at hm)
  have h4t : (toLE4 (4 + 131069)).length = 4 := toLE_length 4 _
  apply ceiling_reject idInflate trueSd _ []
  · rw [hk]
  · rw [hk]
    simp only [List.length_append, h4t]
    omega
  · rw [hk]
    have htk : (toLE4 (4 + 131069) ++
        idDeflate (zlibDictForEntries [CertEntry.compressed] [bigCertA])
          (toLE4 131069 ++ (bigCertA ++ []))).take 4 = toLE4 (4 + 131069) :=
      List.take_left' h4t
    rw [htk, fromLE_toLE4 _ (by norm_num)]
    norm_num

/-- C1 amended: the round trip holds for every chain and cache whose
certificates are free of FNV-1a collisions against each other and whose
compressed payload (4 length bytes plus the bytes of every Compressed
certificate) stays within the decoder 128 KiB ceiling, for any compression
primitive meeting its documented contract. -/
theorem c1_roundtrip_amended
    (deflateFn : List Nat → List Nat → List Nat)
    (inflateFn : Option (List Nat) → List Nat → InflateRes)
    (setDictOk : List Nat → Bool)
    (hinf1 : ∀ d p, (inflateFn none (deflateFn d p)).status = ZStatus.zNeedDict)
    (hinf2 : ∀ d p, inflateFn (some d) (deflateFn d p) = ⟨ZStatus.zStreamEnd, p, 0⟩)
    (hsd : ∀ d, setDictOk d = true)
    (certs cache : List (List Nat))
    (hcoll : ∀ c ∈ certs, ∀ kc ∈ cache, fnv1a64 c = fnv1a64 kc → c = kc)
    (hsize : (payloadOf (matchCerts certs (advOf cache)) certs).length ≤ 128 * 1024) :
    decompressChain inflateFn setDictOk
      (compressChain deflateFn certs (advOf cache)) cache = some certs :=
  roundtrip_main deflateFn inflateFn setDictOk hinf1 hinf2 hsd certs cache hcoll hsize

theorem c1_roundtrip_amended_witness :
    (∀ c ∈ ([[65], [66]] : List (List Nat)), ∀ kc ∈ ([[65]] : List (List Nat)),
        fnv1a64 c = fnv1a64 kc → c = kc) ∧
      (payloadOf (matchCerts [[65], [66]] (advOf [[65]])) [[65], [66]]).length
          ≤ 128 * 1024 ∧
      decompressChain idInflate trueSd
        (compressChain idDeflate [[65], [66]] (advOf [[65]])) [[65]]
        = some [[65], [66]] :=
  ⟨by decide, by decide,
    c1_roundtrip_amended idDeflate idInflate trueSd (fun _ _ => rfl) (fun _ _ => rfl)
      (fun _ => rfl) [[65], [66]] [[65]] (by decide) (by decide)⟩

/-- C6: size ceiling.  A frame whose post-terminator bytes declare an
uncompressed length over 128 KiB is rejected for every inflate primitive
(the primitive is never consulted: the result is none uniformly in it); and
a frame declaring exactly 128 KiB is not rejected by this check: the decoder
proceeds and, here, decodes it successfully. -/
theorem c6_size_ceiling :
    (∀ (setDictOk : List Nat → Bool) (input : List Nat) (cache : List (List Nat)),
      (parseLoop cache input [] 0).ok = true →
      4 ≤ (parseLoop cache input [] 0).rest.length →
      128 * 1024 < fromLE ((parseLoop cache input [] 0).rest.take 4) →
      ∀ inflateFn, decompressChain inflateFn setDictOk input cache = none) ∧
    (fromLE ((parseLoop [] (compressChain idDeflate [bigCertB] (advOf [])) [] 0).rest.take 4)
        = 128 * 1024 ∧
      decompressChain idInflate trueSd
        (compressChain idDeflate [bigCertB] (advOf [])) [] = some [bigCertB]) := by
  refine ⟨?_, ?_, ?_⟩
  · intro setDictOk input cache hok hlen hceil inflateFn
    exact ceiling_reject inflateFn setDictOk input cache hok hlen hceil
  · have hlenB : bigCertB.length = 131068 := by
      simp only [bigCertB, List.length_replicate]
    rw [frame_single idDeflate bigCertB, hlenB]
    obtain ⟨k, hk⟩ := parse_serialize [] [CertEntry.compressed]
      (toLE4 (4 + 131068) ++
        idDeflate (zlibDictForEntries [CertEntry.compressed] [bigCertB])
          (toLE4 131068 ++ (bigCertB ++ [])))
      [] 0 (Or.inl rfl) (by intro h hm; simp at hm)
    rw [hk]
    have h4t : (toLE4 (4 + 131068)).length = 4 := toLE_length 4 _
    have htk : (toLE4 (4 + 131068) ++
        idDeflate (zlibDictForEntries [CertEntry.compressed] [bigCertB])
          (toLE4 131068 ++ (bigCertB ++ []))).take 4 = toLE4 (4 + 131068) :=
      List.take_left' h4t
    rw [htk, fromLE_toLE4 _ (by norm_num)]
  · have hlenB : bigCertB.length = 131068 := by
      simp only [bigCertB, List.length_replicate]
    have hent : matchCerts [bigCertB] (advOf []) = [CertEntry.compressed] := by
      simp [matchCerts, advOf, concatAll]
    have hsizeB : (payloadOf (matchCerts [bigCertB] (advOf [])) [bigCertB]).length
        ≤ 128 * 1024 := by
      rw [hent, payload_single bigCertB]
      simp [toLE4, toLE_length, hlenB]
    exact roundtrip_main idDeflate idInflate trueSd (fun _ _ => rfl) (fun _ _ => rfl)
      (fun _ => rfl) [bigCertB] [] (by simp) hsizeB

theorem c6_size_ceiling_witness :
    (parseLoop [] [0, 1, 0, 2, 0] [] 0).ok = true ∧
      4 ≤ (parseLoop [] [0, 1, 0, 2, 0] [] 0).rest.length ∧
      128 * 1024 < fromLE ((parseLoop [] [0, 1, 0, 2, 0] [] 0).rest.take 4) ∧
      decompressChain idInflate trueSd [0, 1, 0, 2, 0] [] = none :=
  ⟨by simp [parseLoop], by simp [parseLoop],
    by simp [parseLoop]; decide,
    c6_size_ceiling.1 trueSd [0, 1, 0, 2, 0] [] (by simp [parseLoop])
      (by simp [parseLoop]) (by simp [parseLoop]; decide) idInflate⟩

/-- C8 counterexample: on input consisting of the single type byte 1 (a
Compressed entry, then the input ends with no terminator) DecompressChain
returns failure, yet the caller-visible output certificate list holds a
partially reconstructed chain: the one reserved placeholder slot. -/
theorem c8_atomicity_counterexample :
    (decompressChainFull idInflate trueSd [1] []).1 = false ∧
      (decompressChainFull idInflate trueSd [1] []).2 ≠ [] := by
  constructor
  · simp [decompressChainFull, parseLoop]
  · simp [decompressChainFull, parseLoop]

/-- C8 amended: a failing DecompressChain run always signals the failure
through its return value, so no partial chain is ever presented as a
success; but the caller-supplied output list is not cleared and can retain
partially reconstructed slots, as the two-entry truncated input shows. -/
theorem c8_failure_flagged :
    (∀ (inflateFn : Option (List Nat) → List Nat → InflateRes)
        (setDictOk : List Nat → Bool) (input : List Nat) (cache : List (List Nat)),
      (decompressChainFull inflateFn setDictOk input cache).1 = false →
      decompressChain inflateFn setDictOk input cache = none) ∧
    (decompressChainFull idInflate trueSd [1, 1] []).2 = [[], []] := by
  constructor
  · intro inflateFn setDictOk input cache hfail
    rw [decompressChain_eq_none]
    exact hfail
  · simp [decompressChainFull, parseLoop]

theorem c8_failure_flagged_witness :
    (decompressChainFull idInflate trueSd [5] []).1 = false ∧
      decompressChain idInflate trueSd [5] [] = none :=
  ⟨by simp [decompressChainFull, parseLoop],
    c8_failure_flagged.1 idInflate trueSd [5] []
      (by simp [decompressChainFull, parseLoop])⟩

/-- C9 counterexample: CertEntriesSize has no failure channel and computes in
wrapping size_t arithmetic.  On 2 ^ 61 cached entries the true serialized
size is 9 * 2 ^ 61 + 1, past 2 ^ 64; the function silently returns the
wrapped value 2 ^ 61 + 1 instead of detecting the overflow. -/
theorem c9_overflow_counterexample :
    certEntriesSize (List.replicate (2 ^ 61) (CertEntry.cached 0)) = 2 ^ 61 + 1 ∧
      (serializeCertEntries (List.replicate (2 ^ 61) (CertEntry.cached 0))).length
        = 9 * 2 ^ 61 + 1 ∧
      certEntriesSize (List.replicate (2 ^ 61) (CertEntry.cached 0))
        ≠ (serializeCertEntries (List.replicate (2 ^ 61) (CertEntry.cached 0))).length := by
  have hp : (2 : Nat) ^ 61 = 2305843009213693952 := by norm_num
  have h1 : certEntriesSize (List.replicate (2 ^ 61) (CertEntry.cached 0)) = 2 ^ 61 + 1 := by
    rw [certEntriesSize_eq, List.length_replicate, countP_replicate_cached]
    norm_num
  have h2 : (serializeCertEntries (List.replicate (2 ^ 61) (CertEntry.cached 0))).length
      = 9 * 2 ^ 61 + 1 := by
    rw [serialize_length, List.length_replicate, countP_replicate_cached, hp]
  refine ⟨h1, h2, ?_⟩
  rw [h1, h2, hp]
  norm_num

/-- C9 amended: the encoder size computation uses plain wrapping size_t
arithmetic with no overflow check: it always returns the exact serialized
size reduced modulo 2 ^ 64, which equals the true serialized byte length
exactly when that length fits in 64 bits. -/
theorem c9_size_modular :
    (∀ entries : List CertEntry,
      certEntriesSize entries
        = (entries.length + 8 * entries.countP isCachedE + 1) % 2 ^ 64) ∧
    (∀ entries : List CertEntry,
      entries.length + 8 * entries.countP isCachedE + 1 < 2 ^ 64 →
      certEntriesSize entries = (serializeCertEntries entries).length) := by
  refine ⟨certEntriesSize_eq, ?_⟩
  intro entries hlt
  rw [certEntriesSize_eq, serialize_length, Nat.mod_eq_of_lt hlt]

theorem c9_size_modular_witness :
    ([CertEntry.cached 3] : List CertEntry).length
        + 8 * ([CertEntry.cached 3] : List CertEntry).countP isCachedE + 1 < 2 ^ 64 ∧
      certEntriesSize [CertEntry.cached 3]
        = (serializeCertEntries [CertEntry.cached 3]).length :=
  ⟨by decide, c9_size_modular.2 [CertEntry.cached 3] (by decide)⟩

end CertComp
